import Mathlib

/-!
Shallow embedding of the guillotine packing engine
(`src/backend/packing/guillotine.py` together with the data model of
`src/backend/models/schemas.py`), and proofs of the specification claims
about it.

Real-number quantities (`float` in the source) are modelled with `ℚ`.
The `while expanded_pieces:` loop of `pack_pieces` is modelled with
explicit fuel: `packLoop` / `packPieces` return `none` exactly when the
loop does not finish within the given fuel, so non-termination of the
source corresponds to `packPieces` being `none` at every fuel.
-/

namespace Guillotine

/-- `Piece` from `models/schemas.py`: one requested cut line, dimensions in cm. -/
structure Piece where
  name : String
  length : ℚ
  width : ℚ
  quantity : ℕ
  length_constraint : Bool
  width_constraint : Bool
deriving DecidableEq, Repr

/-- `PlacedPiece` from `models/schemas.py`: a piece placed on a board, mm. -/
structure PlacedPiece where
  name : String
  length : ℚ
  width : ℚ
  x : ℚ
  y : ℚ
  rotated : Bool
deriving DecidableEq, Repr

/-- `Board` from `models/schemas.py`. -/
structure Board where
  board_number : ℕ
  length : ℚ
  width : ℚ
  pieces : List PlacedPiece
  utilization : ℚ
  waste_area : ℚ
deriving DecidableEq, Repr

/-- `CuttingResult` from `models/schemas.py`. -/
structure CuttingResult where
  boards : List Board
  total_boards : ℕ
  overall_utilization : ℚ
  rejected_pieces : List Piece
deriving DecidableEq, Repr

/-- `Rectangle` helper class from `guillotine.py`: a free region on a board. -/
structure Rectangle where
  x : ℚ
  y : ℚ
  width : ℚ
  height : ℚ
deriving DecidableEq, Repr

/-- The transient per-unit dict built by `pack_pieces` during expansion
(keys `name`, `length`, `width`, `length_constraint`, `width_constraint`,
`area`); the spec calls it a WorkUnit. Dimensions in mm. -/
structure WorkUnit where
  name : String
  length : ℚ
  width : ℚ
  length_constraint : Bool
  width_constraint : Bool
  area : ℚ
deriving DecidableEq, Repr

/-- The `GuillotinePacker` object: the fixed board size (mm). -/
structure GuillotinePacker where
  board_length : ℚ
  board_width : ℚ
deriving DecidableEq, Repr

/-- Python `round(q, 2)` on the exact rational value: round to the nearest
multiple of 1/100 (ties are not hit by any value in this development). -/
def roundTo2 (q : ℚ) : ℚ :=
  (round (q * 100) : ℤ) / 100

/-- The per-unit feasibility test inside the expansion loop of
`pack_pieces` (`can_fit`), on the cm-level piece: fits unrotated, or fits
rotated provided neither constraint flag is set. -/
def canFit (P : GuillotinePacker) (piece : Piece) : Bool :=
  let length_mm := piece.length * 10
  let width_mm := piece.width * 10
  if length_mm ≤ P.board_length ∧ width_mm ≤ P.board_width then
    true
  else if width_mm ≤ P.board_length ∧ length_mm ≤ P.board_width then
    !piece.length_constraint && !piece.width_constraint
  else
    false

/-- The dict appended to `expanded_pieces` for one unit of `piece`
(cm converted to mm, derived area). -/
def mkWorkUnit (piece : Piece) : WorkUnit :=
  { name := piece.name
    length := piece.length * 10
    width := piece.width * 10
    length_constraint := piece.length_constraint
    width_constraint := piece.width_constraint
    area := piece.length * 10 * (piece.width * 10) }

/-- One outer iteration of the expansion loop of `pack_pieces` on the
accumulated (expanded, rejected) pair: each piece contributes `quantity`
units; each unit either becomes a WorkUnit (if `can_fit`) or appends the
original `Piece` to the rejected list. The `can_fit` test does not depend
on the unit index, so the whole quantity goes to one side. -/
def expandStep (P : GuillotinePacker) (acc : List WorkUnit × List Piece)
    (piece : Piece) : List WorkUnit × List Piece :=
  if canFit P piece then
    (acc.1 ++ List.replicate piece.quantity (mkWorkUnit piece), acc.2)
  else
    (acc.1, acc.2 ++ List.replicate piece.quantity piece)

/-- The full expansion loop of `pack_pieces`. -/
def expandPieces (P : GuillotinePacker) (pieces : List Piece) :
    List WorkUnit × List Piece :=
  pieces.foldl (expandStep P) ([], [])

/-- The sort key comparison of `pack_pieces`: Python sorts by the tuple
`(not (length_constraint or width_constraint), -area)`, so `a` may come
before `b` iff `a`.key ≤ `b`.key lexicographically. -/
def sortLE (a b : WorkUnit) : Bool :=
  let ka : Bool := !(a.length_constraint || a.width_constraint)
  let kb : Bool := !(b.length_constraint || b.width_constraint)
  if ka = kb then decide (b.area ≤ a.area) else (!ka && kb)

/-- Stable insertion into a `sortLE`-sorted list: the new unit goes after
every already-present unit that compares ≤ to it, as a stable sort does. -/
def insertSorted (a : WorkUnit) : List WorkUnit → List WorkUnit
  | [] => [a]
  | b :: l => if sortLE b a then b :: insertSorted a l else a :: b :: l

/-- The `expanded_pieces.sort(key=...)` call: Python's sort is stable, and
the output of a stable sort under a total preorder is unique, so a stable
insertion sort (processing units in their original order) models it. -/
def sortUnits (l : List WorkUnit) : List WorkUnit :=
  l.foldl (fun acc a => insertSorted a acc) []

/-- `_place_and_split`: build the `PlacedPiece` at the corner of `rect` and
the up-to-two guillotine offcuts (full-height right slice, placed-width top
slice). -/
def placeAndSplit (piece : WorkUnit) (rect : Rectangle)
    (placed_width placed_height : ℚ) (rotated : Bool) :
    PlacedPiece × List Rectangle :=
  let placed : PlacedPiece :=
    { name := piece.name
      length := placed_width
      width := placed_height
      x := rect.x
      y := rect.y
      rotated := rotated }
  let new_rects :=
    (if placed_width < rect.width then
      [Rectangle.mk (rect.x + placed_width) rect.y
        (rect.width - placed_width) rect.height]
     else []) ++
    (if placed_height < rect.height then
      [Rectangle.mk rect.x (rect.y + placed_height)
        placed_width (rect.height - placed_height)]
     else [])
  (placed, new_rects)

/-- `_try_place_piece`: normal orientation first (allowed when both flags
are clear, or when only `length_constraint` is set); otherwise fall through
to the rotated attempt, which requires both flags clear. -/
def tryPlacePiece (piece : WorkUnit) (rect : Rectangle) :
    Option (PlacedPiece × List Rectangle) :=
  let tryRotated : Option (PlacedPiece × List Rectangle) :=
    if (!piece.length_constraint && !piece.width_constraint) = true then
      if piece.width ≤ rect.width ∧ piece.length ≤ rect.height then
        some (placeAndSplit piece rect piece.width piece.length true)
      else none
    else none
  if piece.length ≤ rect.width ∧ piece.width ≤ rect.height then
    if (!piece.width_constraint && !piece.length_constraint) = true then
      some (placeAndSplit piece rect piece.length piece.width false)
    else if (piece.length_constraint && !piece.width_constraint) = true then
      some (placeAndSplit piece rect piece.length piece.width false)
    else tryRotated
  else tryRotated

/-- `_merge_rectangles`: drop free rectangles at most 10 mm wide or tall. -/
def mergeRectangles (rectangles : List Rectangle) : List Rectangle :=
  rectangles.filter (fun r => decide (10 < r.width) && decide (10 < r.height))

/-- The inner scan of `_pack_single_board`: walk the free rectangles in
order, place the unit in the first one that accepts it; popping index `i`
and extending with the new rectangles yields the remaining list (order
kept) with the offcuts appended. -/
def placeInFreeRects (piece : WorkUnit) :
    List Rectangle → Option (PlacedPiece × List Rectangle)
  | [] => none
  | rect :: rest =>
    match tryPlacePiece piece rect with
    | some (placed, new_rects) => some (placed, rest ++ new_rects)
    | none =>
      match placeInFreeRects piece rest with
      | some (placed, rects) => some (placed, rect :: rects)
      | none => none

/-- One iteration of the piece loop of `_pack_single_board` on the state
(free rectangles, placed pieces, remaining pieces). -/
def boardStep (st : List Rectangle × List PlacedPiece × List WorkUnit)
    (piece : WorkUnit) : List Rectangle × List PlacedPiece × List WorkUnit :=
  match placeInFreeRects piece st.1 with
  | some (placed, newFree) =>
    (mergeRectangles newFree, st.2.1 ++ [placed], st.2.2)
  | none => (st.1, st.2.1, st.2.2 ++ [piece])

/-- `_pack_single_board`: fold the piece loop from the full-board free
rectangle, then close the board with its utilization and waste area. -/
def packSingleBoard (P : GuillotinePacker) (pieces : List WorkUnit) :
    Board × List WorkUnit :=
  let st := pieces.foldl boardStep
    ([Rectangle.mk 0 0 P.board_length P.board_width], [], [])
  let placed_pieces := st.2.1
  let remaining_pieces := st.2.2
  let used_area := (placed_pieces.map (fun p => p.length * p.width)).sum
  let total_area := P.board_length * P.board_width
  let utilization := if total_area > 0 then used_area / total_area * 100 else 0
  ({ board_number := 0
     length := P.board_length
     width := P.board_width
     pieces := placed_pieces
     utilization := roundTo2 utilization
     waste_area := total_area - used_area }, remaining_pieces)

/-- The `while expanded_pieces:` loop of `pack_pieces`, fuelled: each pass
packs one board (numbered from `board_number`) and recurses on the
remaining pieces; `none` when the fuel runs out before the list empties. -/
def packLoop (P : GuillotinePacker) :
    ℕ → List WorkUnit → ℕ → Option (List Board)
  | _, [], _ => some []
  | 0, _ :: _, _ => none
  | fuel + 1, p :: ps, board_number =>
    let bd := packSingleBoard P (p :: ps)
    match packLoop P fuel bd.2 (board_number + 1) with
    | some boards => some ({ bd.1 with board_number := board_number } :: boards)
    | none => none

/-- `pack_pieces`: expand and filter, sort, pack boards, aggregate the
overall utilization. `none` exactly when the board loop does not finish
within `fuel` boards. -/
def packPieces (P : GuillotinePacker) (fuel : ℕ) (pieces : List Piece) :
    Option CuttingResult :=
  let ex := expandPieces P pieces
  let sorted := sortUnits ex.1
  match packLoop P fuel sorted 1 with
  | some boards =>
    let total_area := P.board_length * P.board_width * boards.length
    let used_area :=
      (boards.map (fun b => b.utilization * P.board_length * P.board_width / 100)).sum
    let overall_utilization :=
      if total_area > 0 then used_area / total_area * 100 else 0
    some { boards := boards
           total_boards := boards.length
           overall_utilization := roundTo2 overall_utilization
           rejected_pieces := ex.2 }
  | none => none

/-- Open-interior overlap of two axis-aligned rectangles: the interiors
intersect iff both projections strictly overlap. -/
def Rectangle.overlapsRect (a b : Rectangle) : Prop :=
  a.x < b.x + b.width ∧ b.x < a.x + a.width ∧
  a.y < b.y + b.height ∧ b.y < a.y + a.height

/-- The region a placed piece covers on its board: `length` extends along
the x axis, `width` along the y axis. -/
def PlacedPiece.rect (p : PlacedPiece) : Rectangle :=
  ⟨p.x, p.y, p.length, p.width⟩

/-- Containment of rectangle `a` inside rectangle `b`. -/
def SubRect (a b : Rectangle) : Prop :=
  b.x ≤ a.x ∧ a.x + a.width ≤ b.x + b.width ∧
  b.y ≤ a.y ∧ a.y + a.height ≤ b.y + b.height

/-- The rectangle spanning the whole board. -/
def boardRect (P : GuillotinePacker) : Rectangle :=
  ⟨0, 0, P.board_length, P.board_width⟩

/-- The geometric invariant of the single-board packing state: free
rectangles lie in the board and are pairwise non-overlapping, placed
pieces lie in the board and are pairwise non-overlapping, and no free
rectangle overlaps a placed piece. -/
structure PackInv (P : GuillotinePacker) (free : List Rectangle)
    (placed : List PlacedPiece) : Prop where
  free_sub : ∀ r ∈ free, SubRect r (boardRect P)
  free_pw : free.Pairwise fun a b => ¬ a.overlapsRect b
  free_placed : ∀ r ∈ free, ∀ q ∈ placed, ¬ r.overlapsRect q.rect
  placed_sub : ∀ q ∈ placed, SubRect q.rect (boardRect P)
  placed_pw : placed.Pairwise fun a b => ¬ a.rect.overlapsRect b.rect

/-- A work unit with either lock flag set. -/
def constrained (u : WorkUnit) : Bool :=
  u.length_constraint || u.width_constraint

/-- Per-unit rejection, stated independently of `expandPieces`: each
infeasible piece contributes one copy per requested unit, in input order. -/
def rejectedPerUnit (P : GuillotinePacker) : List Piece → List Piece
  | [] => []
  | p :: ps =>
    (if canFit P p then [] else List.replicate p.quantity p) ++
      rejectedPerUnit P ps

/-- The board size used by the API layer: 2400 mm × 1200 mm. -/
def packerA : GuillotinePacker := ⟨2400, 1200⟩

/-- Scenario A piece: 100 cm × 50 cm, quantity 1, no locks. -/
def pieceP1 : Piece := ⟨"P1", 100, 50, 1, false, false⟩

/-- An infeasible piece (300 cm exceeds the board both ways), quantity 2. -/
def pieceB300 : Piece := ⟨"B", 300, 50, 2, false, false⟩

/-- A width-locked piece that fits the board unrotated. -/
def pieceWLock : Piece := ⟨"W", 100, 50, 1, false, true⟩

/-- Scenario C piece: 130 cm × 50 cm with the length lock set. -/
def pieceC : Piece := ⟨"C", 130, 50, 1, true, false⟩

/-- The packing result of scenario A: one board holding one placed piece,
utilization 17.36 % (= 434/25). -/
def resultA : CuttingResult :=
  ⟨[⟨1, 2400, 1200, [⟨"P1", 1000, 500, 0, 0, false⟩], 434/25, 2380000⟩],
   1, 434/25, []⟩

attribute [local semireducible] Rat.mul Rat.add Rat.sub Rat.inv

lemma overlapsRect_symm {a b : Rectangle} (h : a.overlapsRect b) :
    b.overlapsRect a := by
  obtain ⟨h1, h2, h3, h4⟩ := h
  exact ⟨h2, h1, h4, h3⟩

lemma SubRect.rfl {a : Rectangle} : SubRect a a :=
  ⟨le_refl _, le_refl _, le_refl _, le_refl _⟩

lemma SubRect.trans {a b c : Rectangle} (hab : SubRect a b) (hbc : SubRect b c) :
    SubRect a c := by
  obtain ⟨h1, h2, h3, h4⟩ := hab
  obtain ⟨g1, g2, g3, g4⟩ := hbc
  exact ⟨le_trans g1 h1, le_trans h2 g2, le_trans g3 h3, le_trans h4 g4⟩

lemma overlapsRect_mono {a r s : Rectangle} (hsub : SubRect a r)
    (h : a.overlapsRect s) : r.overlapsRect s := by
  obtain ⟨s1, s2, s3, s4⟩ := hsub
  obtain ⟨h1, h2, h3, h4⟩ := h
  exact ⟨lt_of_le_of_lt s1 h1, lt_of_lt_of_le h2 s2,
    lt_of_le_of_lt s3 h3, lt_of_lt_of_le h4 s4⟩

lemma placeAndSplit_placed {piece : WorkUnit} {rect : Rectangle}
    {pw ph : ℚ} {rot : Bool} :
    (placeAndSplit piece rect pw ph rot).1 =
      ⟨piece.name, pw, ph, rect.x, rect.y, rot⟩ := by
  simp [placeAndSplit]

lemma placeAndSplit_new_mem {piece : WorkUnit} {rect : Rectangle}
    {pw ph : ℚ} {rot : Bool} {nr : Rectangle}
    (h : nr ∈ (placeAndSplit piece rect pw ph rot).2) :
    (pw < rect.width ∧
      nr = ⟨rect.x + pw, rect.y, rect.width - pw, rect.height⟩) ∨
    (ph < rect.height ∧
      nr = ⟨rect.x, rect.y + ph, pw, rect.height - ph⟩) := by
  simp only [placeAndSplit, List.mem_append] at h
  rcases h with h | h
  · left
    split at h
    · next hc => simp only [List.mem_singleton] at h; exact ⟨hc, h⟩
    · simp at h
  · right
    split at h
    · next hc => simp only [List.mem_singleton] at h; exact ⟨hc, h⟩
    · simp at h

lemma placeAndSplit_placed_sub {piece : WorkUnit} {rect : Rectangle}
    {pw ph : ℚ} {rot : Bool} (hw : pw ≤ rect.width) (hh : ph ≤ rect.height) :
    SubRect (placeAndSplit piece rect pw ph rot).1.rect rect := by
  rw [placeAndSplit_placed]
  dsimp only [SubRect, PlacedPiece.rect]
  exact ⟨le_refl _, by linarith, le_refl _, by linarith⟩

lemma placeAndSplit_new_sub {piece : WorkUnit} {rect : Rectangle}
    {pw ph : ℚ} {rot : Bool} {nr : Rectangle} (hw : pw ≤ rect.width)
    (hpw : 0 ≤ pw) (hph : 0 ≤ ph)
    (h : nr ∈ (placeAndSplit piece rect pw ph rot).2) :
    SubRect nr rect := by
  rcases placeAndSplit_new_mem h with ⟨hc, rfl⟩ | ⟨hc, rfl⟩ <;>
    dsimp only [SubRect] <;>
    exact ⟨by linarith, by linarith, by linarith, by linarith⟩

lemma placeAndSplit_new_disj_placed {piece : WorkUnit} {rect : Rectangle}
    {pw ph : ℚ} {rot : Bool} {nr : Rectangle}
    (h : nr ∈ (placeAndSplit piece rect pw ph rot).2) :
    ¬ nr.overlapsRect (placeAndSplit piece rect pw ph rot).1.rect := by
  rw [placeAndSplit_placed]
  rcases placeAndSplit_new_mem h with ⟨hc, rfl⟩ | ⟨hc, rfl⟩ <;>
    (dsimp only [Rectangle.overlapsRect, PlacedPiece.rect]
     rintro ⟨h1, h2, h3, h4⟩
     linarith)

lemma placeAndSplit_new_pw {piece : WorkUnit} {rect : Rectangle}
    {pw ph : ℚ} {rot : Bool} :
    (placeAndSplit piece rect pw ph rot).2.Pairwise
      fun a b => ¬ a.overlapsRect b := by
  dsimp only [placeAndSplit]
  by_cases h1 : pw < rect.width
  · by_cases h2 : ph < rect.height
    · rw [if_pos h1, if_pos h2]
      simp only [List.singleton_append, List.pairwise_cons,
        List.mem_singleton, List.not_mem_nil, false_implies, implies_true,
        List.Pairwise.nil, and_true]
      intro b hb
      subst hb
      dsimp only [Rectangle.overlapsRect]
      rintro ⟨g1, g2, g3, g4⟩
      linarith
    · rw [if_pos h1, if_neg h2]
      simp
  · by_cases h2 : ph < rect.height
    · rw [if_neg h1, if_pos h2]
      simp
    · rw [if_neg h1, if_neg h2]
      simp

lemma tryPlacePiece_cases {piece : WorkUnit} {rect : Rectangle}
    {pp : PlacedPiece} {nrs : List Rectangle}
    (h : tryPlacePiece piece rect = some (pp, nrs)) :
    (piece.length ≤ rect.width ∧ piece.width ≤ rect.height ∧
      (pp, nrs) = placeAndSplit piece rect piece.length piece.width false) ∨
    ((!piece.length_constraint && !piece.width_constraint) = true ∧
      piece.width ≤ rect.width ∧ piece.length ≤ rect.height ∧
      (pp, nrs) = placeAndSplit piece rect piece.width piece.length true) := by
  dsimp only [tryPlacePiece] at h
  split at h
  · next hfit =>
    split at h
    · exact Or.inl ⟨hfit.1, hfit.2, (Option.some.injEq _ _ ▸ h.symm :)⟩
    · split at h
      · exact Or.inl ⟨hfit.1, hfit.2, (Option.some.injEq _ _ ▸ h.symm :)⟩
      · split at h
        · next hfree =>
          split at h
          · next hrot =>
            exact Or.inr ⟨hfree, hrot.1, hrot.2,
              (Option.some.injEq _ _ ▸ h.symm :)⟩
          · exact absurd h (by simp)
        · exact absurd h (by simp)
  · split at h
    · next hfree =>
      split at h
      · next hrot =>
        exact Or.inr ⟨hfree, hrot.1, hrot.2,
          (Option.some.injEq _ _ ▸ h.symm :)⟩
      · exact absurd h (by simp)
    · exact absurd h (by simp)

lemma tryPlacePiece_rotated_eq_false {piece : WorkUnit} {rect : Rectangle}
    {pp : PlacedPiece} {nrs : List Rectangle}
    (hc : piece.length_constraint = true ∨ piece.width_constraint = true)
    (h : tryPlacePiece piece rect = some (pp, nrs)) : pp.rotated = false := by
  rcases tryPlacePiece_cases h with ⟨_, _, heq⟩ | ⟨hfree, _, _, heq⟩
  · have := congrArg (fun x => x.1.rotated) heq
    simpa [placeAndSplit] using this
  · rcases hc with hc | hc <;> rw [hc] at hfree <;> simp at hfree

lemma tryPlacePiece_width_constraint_none {piece : WorkUnit}
    {rect : Rectangle} (hc : piece.width_constraint = true) :
    tryPlacePiece piece rect = none := by
  dsimp only [tryPlacePiece]
  simp [hc]

lemma not_overlaps_of_sub_left {a r b : Rectangle} (hs : SubRect a r)
    (hd : ¬ r.overlapsRect b) : ¬ a.overlapsRect b :=
  fun h => hd (overlapsRect_mono hs h)

lemma not_overlaps_of_sub_right {a r b : Rectangle} (hs : SubRect b r)
    (hd : ¬ a.overlapsRect r) : ¬ a.overlapsRect b :=
  fun h => hd (overlapsRect_symm (overlapsRect_mono hs (overlapsRect_symm h)))

lemma tryPlacePiece_geom {piece : WorkUnit} {rect : Rectangle}
    {pp : PlacedPiece} {nrs : List Rectangle}
    (hl : 0 ≤ piece.length) (hw : 0 ≤ piece.width)
    (h : tryPlacePiece piece rect = some (pp, nrs)) :
    SubRect pp.rect rect ∧ (∀ nr ∈ nrs, SubRect nr rect) ∧
    (∀ nr ∈ nrs, ¬ nr.overlapsRect pp.rect) ∧
    (nrs.Pairwise fun a b => ¬ a.overlapsRect b) := by
  rcases tryPlacePiece_cases h with ⟨h1, h2, heq⟩ | ⟨_, h1, h2, heq⟩
  · have hpp : pp =
        (placeAndSplit piece rect piece.length piece.width false).1 := by
      rw [← heq]
    have hnrs : nrs =
        (placeAndSplit piece rect piece.length piece.width false).2 := by
      rw [← heq]
    subst hpp
    subst hnrs
    exact ⟨placeAndSplit_placed_sub h1 h2,
      fun nr hnr => placeAndSplit_new_sub h1 hl hw hnr,
      fun nr hnr => placeAndSplit_new_disj_placed hnr,
      placeAndSplit_new_pw⟩
  · have hpp : pp =
        (placeAndSplit piece rect piece.width piece.length true).1 := by
      rw [← heq]
    have hnrs : nrs =
        (placeAndSplit piece rect piece.width piece.length true).2 := by
      rw [← heq]
    subst hpp
    subst hnrs
    exact ⟨placeAndSplit_placed_sub h1 h2,
      fun nr hnr => placeAndSplit_new_sub h1 hw hl hnr,
      fun nr hnr => placeAndSplit_new_disj_placed hnr,
      placeAndSplit_new_pw⟩

lemma placeInFreeRects_spec {piece : WorkUnit} {free : List Rectangle}
    {pp : PlacedPiece} {newFree : List Rectangle}
    (hl : 0 ≤ piece.length) (hw : 0 ≤ piece.width)
    (hfp : free.Pairwise fun a b => ¬ a.overlapsRect b)
    (h : placeInFreeRects piece free = some (pp, newFree)) :
    (∃ r0 ∈ free, SubRect pp.rect r0) ∧
    (∀ r ∈ newFree, ∃ r0 ∈ free, SubRect r r0) ∧
    (newFree.Pairwise fun a b => ¬ a.overlapsRect b) ∧
    (∀ r ∈ newFree, ¬ r.overlapsRect pp.rect) := by
  induction free generalizing newFree with
  | nil => exact absurd h (by simp [placeInFreeRects])
  | cons rect rest ih =>
    rw [List.pairwise_cons] at hfp
    obtain ⟨hhead, htail⟩ := hfp
    dsimp only [placeInFreeRects] at h
    rcases htp : tryPlacePiece piece rect with _ | ⟨placed0, nrs⟩
    · rw [htp] at h
      rcases hrec : placeInFreeRects piece rest with _ | ⟨pl, rects⟩
      · rw [hrec] at h
        simp at h
      · rw [hrec] at h
        simp only [Option.some.injEq, Prod.mk.injEq] at h
        obtain ⟨hpl, hnf⟩ := h
        subst hpl
        subst hnf
        obtain ⟨⟨r0, hr0, hppsub⟩, hsub, hpw, hdisj⟩ := ih htail hrec
        refine ⟨⟨r0, List.mem_cons_of_mem _ hr0, hppsub⟩, ?_, ?_, ?_⟩
        · intro r hr
          rcases List.mem_cons.mp hr with rfl | hr
          · exact ⟨r, List.mem_cons_self _ _, SubRect.rfl⟩
          · obtain ⟨r1, hr1, hs⟩ := hsub r hr
            exact ⟨r1, List.mem_cons_of_mem _ hr1, hs⟩
        · rw [List.pairwise_cons]
          refine ⟨?_, hpw⟩
          intro b hb
          obtain ⟨r1, hr1, hs⟩ := hsub b hb
          exact not_overlaps_of_sub_right hs (hhead r1 hr1)
        · intro r hr
          rcases List.mem_cons.mp hr with rfl | hr
          · exact not_overlaps_of_sub_right hppsub (hhead r0 hr0)
          · exact hdisj r hr
    · rw [htp] at h
      simp only [Option.some.injEq, Prod.mk.injEq] at h
      obtain ⟨hpl, hnf⟩ := h
      subst hpl
      subst hnf
      obtain ⟨hppsub, hnrs_sub, hnrs_disj, hnrs_pw⟩ := tryPlacePiece_geom hl hw htp
      refine ⟨⟨rect, List.mem_cons_self _ _, hppsub⟩, ?_, ?_, ?_⟩
      · intro r hr
        rcases List.mem_append.mp hr with hr | hr
        · exact ⟨r, List.mem_cons_of_mem _ hr, SubRect.rfl⟩
        · exact ⟨rect, List.mem_cons_self _ _, hnrs_sub r hr⟩
      · rw [List.pairwise_append]
        refine ⟨htail, hnrs_pw, ?_⟩
        intro a ha b hb
        exact fun hab => (hhead a ha)
          (overlapsRect_mono (hnrs_sub b hb) (overlapsRect_symm hab))
      · intro r hr
        rcases List.mem_append.mp hr with hr | hr
        · exact fun hc => (hhead r hr)
            (overlapsRect_mono hppsub (overlapsRect_symm hc))
        · exact hnrs_disj r hr

lemma mergeRectangles_mem {l : List Rectangle} {r : Rectangle}
    (h : r ∈ mergeRectangles l) : r ∈ l :=
  (List.filter_sublist l).subset h

lemma mergeRectangles_pairwise {l : List Rectangle}
    {R : Rectangle → Rectangle → Prop} (h : l.Pairwise R) :
    (mergeRectangles l).Pairwise R :=
  List.Pairwise.sublist (List.filter_sublist l) h

lemma boardStep_inv {P : GuillotinePacker}
    {st : List Rectangle × List PlacedPiece × List WorkUnit}
    {piece : WorkUnit} (hl : 0 ≤ piece.length) (hw : 0 ≤ piece.width)
    (hinv : PackInv P st.1 st.2.1) :
    PackInv P (boardStep st piece).1 (boardStep st piece).2.1 := by
  obtain ⟨f, pl, rm⟩ := st
  dsimp only [boardStep]
  rcases hpl : placeInFreeRects piece f with _ | ⟨pp, newFree⟩
  · exact hinv
  · dsimp only
    obtain ⟨⟨r0, hr0, hpp⟩, hsub, hpw, hdisj⟩ :=
      placeInFreeRects_spec hl hw hinv.free_pw hpl
    refine ⟨?_, mergeRectangles_pairwise hpw, ?_, ?_, ?_⟩
    · intro r hr
      obtain ⟨r1, hr1, hs⟩ := hsub r (mergeRectangles_mem hr)
      exact hs.trans (hinv.free_sub r1 hr1)
    · intro r hr q hq
      rcases List.mem_append.mp hq with hq | hq
      · obtain ⟨r1, hr1, hs⟩ := hsub r (mergeRectangles_mem hr)
        exact not_overlaps_of_sub_left hs (hinv.free_placed r1 hr1 q hq)
      · rw [List.mem_singleton] at hq
        subst hq
        exact hdisj r (mergeRectangles_mem hr)
    · intro q hq
      rcases List.mem_append.mp hq with hq | hq
      · exact hinv.placed_sub q hq
      · rw [List.mem_singleton] at hq
        subst hq
        exact hpp.trans (hinv.free_sub r0 hr0)
    · rw [List.pairwise_append]
      refine ⟨hinv.placed_pw, by simp, ?_⟩
      intro a ha b hb
      rw [List.mem_singleton] at hb
      subst hb
      exact fun hab => (hinv.free_placed r0 hr0 a ha)
        (overlapsRect_mono hpp (overlapsRect_symm hab))

lemma foldl_boardStep_inv {P : GuillotinePacker} {pieces : List WorkUnit}
    {st : List Rectangle × List PlacedPiece × List WorkUnit}
    (hd : ∀ u ∈ pieces, 0 ≤ u.length ∧ 0 ≤ u.width)
    (hinv : PackInv P st.1 st.2.1) :
    PackInv P ((pieces.foldl boardStep st).1)
      ((pieces.foldl boardStep st).2.1) := by
  induction pieces generalizing st with
  | nil => exact hinv
  | cons p ps ih =>
    exact ih (fun u hu => hd u (List.mem_cons_of_mem _ hu))
      (boardStep_inv (hd p (List.mem_cons_self _ _)).1
        (hd p (List.mem_cons_self _ _)).2 hinv)

lemma packInv_init {P : GuillotinePacker} :
    PackInv P [Rectangle.mk 0 0 P.board_length P.board_width] [] := by
  refine ⟨?_, by simp, by simp, by simp, by simp⟩
  intro r hr
  rw [List.mem_singleton] at hr
  subst hr
  exact SubRect.rfl

lemma packSingleBoard_geom {P : GuillotinePacker} {pieces : List WorkUnit}
    (hd : ∀ u ∈ pieces, 0 ≤ u.length ∧ 0 ≤ u.width) :
    (∀ q ∈ (packSingleBoard P pieces).1.pieces, SubRect q.rect (boardRect P)) ∧
    ((packSingleBoard P pieces).1.pieces.Pairwise
      fun a c => ¬ a.rect.overlapsRect c.rect) := by
  have h := @foldl_boardStep_inv P pieces
    ([Rectangle.mk 0 0 P.board_length P.board_width], [], []) hd packInv_init
  exact ⟨h.placed_sub, h.placed_pw⟩

lemma boardStep_count
    {st : List Rectangle × List PlacedPiece × List WorkUnit}
    {piece : WorkUnit} :
    (boardStep st piece).2.1.length + (boardStep st piece).2.2.length =
      st.2.1.length + st.2.2.length + 1 := by
  obtain ⟨f, pl, rm⟩ := st
  dsimp only [boardStep]
  rcases placeInFreeRects piece f with _ | ⟨pp, newFree⟩ <;>
    simp <;> omega

lemma foldl_boardStep_count {pieces : List WorkUnit}
    {st : List Rectangle × List PlacedPiece × List WorkUnit} :
    (pieces.foldl boardStep st).2.1.length +
      (pieces.foldl boardStep st).2.2.length =
      st.2.1.length + st.2.2.length + pieces.length := by
  induction pieces generalizing st with
  | nil => simp
  | cons p ps ih =>
    rw [List.foldl_cons, ih, boardStep_count, List.length_cons]
    omega

lemma packSingleBoard_count {P : GuillotinePacker} {pieces : List WorkUnit} :
    (packSingleBoard P pieces).1.pieces.length +
      (packSingleBoard P pieces).2.length = pieces.length := by
  have h := @foldl_boardStep_count pieces
    ([Rectangle.mk 0 0 P.board_length P.board_width], [], [])
  dsimp only [packSingleBoard]
  simpa using h

lemma boardStep_rem_sub
    {st : List Rectangle × List PlacedPiece × List WorkUnit}
    {piece u : WorkUnit} (h : u ∈ (boardStep st piece).2.2) :
    u ∈ st.2.2 ∨ u = piece := by
  obtain ⟨f, pl, rm⟩ := st
  dsimp only [boardStep] at h
  rcases hpl : placeInFreeRects piece f with _ | ⟨pp, newFree⟩ <;>
    rw [hpl] at h <;> dsimp only at h
  · rcases List.mem_append.mp h with h | h
    · exact Or.inl h
    · rw [List.mem_singleton] at h
      exact Or.inr h
  · exact Or.inl h

lemma foldl_boardStep_rem_sub {pieces : List WorkUnit}
    {st : List Rectangle × List PlacedPiece × List WorkUnit} {u : WorkUnit}
    (h : u ∈ (pieces.foldl boardStep st).2.2) :
    u ∈ st.2.2 ∨ u ∈ pieces := by
  induction pieces generalizing st with
  | nil => exact Or.inl h
  | cons p ps ih =>
    rw [List.foldl_cons] at h
    rcases ih h with h | h
    · rcases boardStep_rem_sub h with h | h
      · exact Or.inl h
      · exact Or.inr (h ▸ List.mem_cons_self _ _)
    · exact Or.inr (List.mem_cons_of_mem _ h)

lemma packSingleBoard_rem_sub {P : GuillotinePacker} {pieces : List WorkUnit}
    {u : WorkUnit} (h : u ∈ (packSingleBoard P pieces).2) : u ∈ pieces := by
  dsimp only [packSingleBoard] at h
  rcases foldl_boardStep_rem_sub h with h | h
  · simp at h
  · exact h

lemma foldl_boardStep_placed_nil {pieces : List WorkUnit}
    {st : List Rectangle × List PlacedPiece × List WorkUnit}
    (h : (pieces.foldl boardStep st).2.1 = []) :
    st.2.1 = [] ∧ (pieces.foldl boardStep st).2.2 = st.2.2 ++ pieces := by
  induction pieces generalizing st with
  | nil => exact ⟨h, by simp⟩
  | cons p ps ih =>
    rw [List.foldl_cons] at h ⊢
    obtain ⟨h1, h2⟩ := ih h
    obtain ⟨f, pl, rm⟩ := st
    dsimp only [boardStep] at h1 h2 ⊢
    rcases hpl : placeInFreeRects p f with _ | ⟨pp, newFree⟩ <;>
      rw [hpl] at h1 h2 <;> dsimp only at h1 h2 ⊢
    · exact ⟨h1, by rw [h2, List.append_assoc]; simp⟩
    · exact absurd h1 (by simp)

lemma packSingleBoard_placed_nil {P : GuillotinePacker}
    {pieces : List WorkUnit}
    (h : (packSingleBoard P pieces).1.pieces = []) :
    (packSingleBoard P pieces).2 = pieces := by
  dsimp only [packSingleBoard] at h ⊢
  simpa using (foldl_boardStep_placed_nil h).2

lemma packLoop_nil {P : GuillotinePacker} (fuel n : ℕ) :
    packLoop P fuel [] n = some [] := by
  cases fuel <;> rfl

lemma packLoop_stuck {P : GuillotinePacker} {p : WorkUnit}
    {ps : List WorkUnit}
    (hempty : (packSingleBoard P (p :: ps)).1.pieces = []) :
    ∀ fuel n, packLoop P fuel (p :: ps) n = none := by
  intro fuel
  induction fuel with
  | zero => intro n; rfl
  | succ k ih =>
    intro n
    have hrem : (packSingleBoard P (p :: ps)).2 = p :: ps :=
      packSingleBoard_placed_nil hempty
    dsimp only [packLoop]
    rw [hrem, ih (n + 1)]

lemma packLoop_boards {P : GuillotinePacker} {fuel n : ℕ}
    {l : List WorkUnit} {bs : List Board}
    (hd : ∀ u ∈ l, 0 ≤ u.length ∧ 0 ≤ u.width)
    (h : packLoop P fuel l n = some bs) :
    ∀ b ∈ bs,
      (∀ q ∈ b.pieces, SubRect q.rect (boardRect P)) ∧
      (b.pieces.Pairwise fun a c => ¬ a.rect.overlapsRect c.rect) ∧
      b.length = P.board_length ∧ b.width = P.board_width := by
  induction fuel generalizing l n bs with
  | zero =>
    cases l with
    | nil =>
      rw [packLoop_nil] at h
      simp only [Option.some.injEq] at h
      subst h
      simp
    | cons p ps => exact absurd h (by simp [packLoop])
  | succ k ih =>
    cases l with
    | nil =>
      rw [packLoop_nil] at h
      simp only [Option.some.injEq] at h
      subst h
      simp
    | cons p ps =>
      dsimp only [packLoop] at h
      rcases hrec : packLoop P k (packSingleBoard P (p :: ps)).2 (n + 1)
        with _ | bs'
      · rw [hrec] at h
        simp at h
      · rw [hrec] at h
        simp only [Option.some.injEq] at h
        subst h
        intro b hb
        rcases List.mem_cons.mp hb with rfl | hb
        · have hg := @packSingleBoard_geom P (p :: ps) hd
          exact ⟨hg.1, hg.2, rfl, rfl⟩
        · exact ih (fun u hu => hd u (packSingleBoard_rem_sub hu)) hrec b hb

lemma packLoop_count {P : GuillotinePacker} {fuel n : ℕ}
    {l : List WorkUnit} {bs : List Board}
    (h : packLoop P fuel l n = some bs) :
    (bs.map fun b => b.pieces.length).sum = l.length := by
  induction fuel generalizing l n bs with
  | zero =>
    cases l with
    | nil =>
      rw [packLoop_nil] at h
      simp only [Option.some.injEq] at h
      subst h
      simp
    | cons p ps => exact absurd h (by simp [packLoop])
  | succ k ih =>
    cases l with
    | nil =>
      rw [packLoop_nil] at h
      simp only [Option.some.injEq] at h
      subst h
      simp
    | cons p ps =>
      dsimp only [packLoop] at h
      rcases hrec : packLoop P k (packSingleBoard P (p :: ps)).2 (n + 1)
        with _ | bs'
      · rw [hrec] at h
        simp at h
      · rw [hrec] at h
        simp only [Option.some.injEq] at h
        subst h
        have hc := @packSingleBoard_count P (p :: ps)
        have hrec_count := ih hrec
        simp only [List.map_cons, List.sum_cons]
        rw [hrec_count]
        simpa using hc

lemma packLoop_nonempty {P : GuillotinePacker} {fuel n : ℕ}
    {l : List WorkUnit} {bs : List Board}
    (h : packLoop P fuel l n = some bs) : ∀ b ∈ bs, b.pieces ≠ [] := by
  induction fuel generalizing l n bs with
  | zero =>
    cases l with
    | nil =>
      rw [packLoop_nil] at h
      simp only [Option.some.injEq] at h
      subst h
      simp
    | cons p ps => exact absurd h (by simp [packLoop])
  | succ k ih =>
    cases l with
    | nil =>
      rw [packLoop_nil] at h
      simp only [Option.some.injEq] at h
      subst h
      simp
    | cons p ps =>
      dsimp only [packLoop] at h
      rcases hrec : packLoop P k (packSingleBoard P (p :: ps)).2 (n + 1)
        with _ | bs'
      · rw [hrec] at h
        simp at h
      · rw [hrec] at h
        simp only [Option.some.injEq] at h
        subst h
        intro b hb
        rcases List.mem_cons.mp hb with rfl | hb
        · intro hnil
          dsimp only at hnil
          rw [packSingleBoard_placed_nil hnil] at hrec
          rw [packLoop_stuck hnil k (n + 1)] at hrec
          exact absurd hrec (by simp)
        · exact ih hrec b hb

lemma packLoop_mono {P : GuillotinePacker} {l : List WorkUnit} {n : ℕ}
    {bs : List Board} :
    ∀ {fuel fuel' : ℕ}, fuel ≤ fuel' →
      packLoop P fuel l n = some bs → packLoop P fuel' l n = some bs := by
  intro fuel
  induction fuel generalizing l n bs with
  | zero =>
    intro fuel' _ h
    cases l with
    | nil =>
      rw [packLoop_nil] at h
      simp only [Option.some.injEq] at h
      subst h
      exact packLoop_nil _ _
    | cons p ps => exact absurd h (by simp [packLoop])
  | succ k ih =>
    intro fuel' hle h
    cases l with
    | nil =>
      rw [packLoop_nil] at h
      simp only [Option.some.injEq] at h
      subst h
      exact packLoop_nil _ _
    | cons p ps =>
      cases fuel' with
      | zero => omega
      | succ k' =>
        dsimp only [packLoop] at h ⊢
        rcases hrec : packLoop P k (packSingleBoard P (p :: ps)).2 (n + 1)
          with _ | bs'
        · rw [hrec] at h
          simp at h
        · rw [hrec] at h
          rw [ih (Nat.succ_le_succ_iff.mp hle) hrec]
          exact h

lemma sortLE_total (a b : WorkUnit) :
    sortLE a b = true ∨ sortLE b a = true := by
  dsimp only [sortLE]
  cases hA : a.length_constraint || a.width_constraint <;>
    cases hB : b.length_constraint || b.width_constraint <;>
    simp [hA, hB] <;> exact le_total _ _

lemma sortLE_trans {a b c : WorkUnit} (hab : sortLE a b = true)
    (hbc : sortLE b c = true) : sortLE a c = true := by
  dsimp only [sortLE] at hab hbc ⊢
  cases hA : a.length_constraint || a.width_constraint <;>
    cases hB : b.length_constraint || b.width_constraint <;>
    cases hC : c.length_constraint || c.width_constraint <;>
    simp [hA, hB, hC] at hab hbc ⊢ <;> linarith

lemma insertSorted_perm (a : WorkUnit) (l : List WorkUnit) :
    (insertSorted a l).Perm (a :: l) := by
  induction l with
  | nil => exact List.Perm.refl _
  | cons b t ih =>
    dsimp only [insertSorted]
    by_cases h : sortLE b a = true
    · rw [if_pos h]
      exact (ih.cons b).trans (List.Perm.swap a b t)
    · rw [if_neg h]

lemma insertSorted_sorted {a : WorkUnit} {l : List WorkUnit}
    (h : l.Pairwise fun x y => sortLE x y = true) :
    (insertSorted a l).Pairwise fun x y => sortLE x y = true := by
  induction l with
  | nil => simp [insertSorted]
  | cons b t ih =>
    rw [List.pairwise_cons] at h
    obtain ⟨hb, ht⟩ := h
    dsimp only [insertSorted]
    by_cases hba : sortLE b a = true
    · rw [if_pos hba, List.pairwise_cons]
      refine ⟨?_, ih ht⟩
      intro x hx
      rcases List.mem_cons.mp ((insertSorted_perm a t).mem_iff.mp hx)
        with rfl | hx
      · exact hba
      · exact hb x hx
    · rw [if_neg hba]
      have hab : sortLE a b = true :=
        (sortLE_total a b).resolve_right (by simpa using hba)
      rw [List.pairwise_cons]
      refine ⟨?_, List.Pairwise.cons hb ht⟩
      intro x hx
      rcases List.mem_cons.mp hx with rfl | hx
      · exact hab
      · exact sortLE_trans hab (hb x hx)

lemma foldl_insertSorted_perm (l : List WorkUnit) (acc : List WorkUnit) :
    (l.foldl (fun acc a => insertSorted a acc) acc).Perm (acc ++ l) := by
  induction l generalizing acc with
  | nil => simp
  | cons a t ih =>
    rw [List.foldl_cons]
    refine (ih _).trans ?_
    refine (((insertSorted_perm a acc).append_right t).trans ?_)
    exact List.perm_middle.symm

lemma sortUnits_perm (l : List WorkUnit) : (sortUnits l).Perm l := by
  simpa using foldl_insertSorted_perm l []

lemma sortUnits_sorted (l : List WorkUnit) :
    (sortUnits l).Pairwise fun x y => sortLE x y = true := by
  have main : ∀ (t acc : List WorkUnit),
      acc.Pairwise (fun x y => sortLE x y = true) →
      (t.foldl (fun acc a => insertSorted a acc) acc).Pairwise
        fun x y => sortLE x y = true := by
    intro t
    induction t with
    | nil => intro acc h; exact h
    | cons a s ih =>
      intro acc h
      rw [List.foldl_cons]
      exact ih _ (insertSorted_sorted h)
  exact main l [] (by simp)

lemma foldl_expandStep_append (P : GuillotinePacker) (pieces : List Piece)
    (acc : List WorkUnit × List Piece) :
    pieces.foldl (expandStep P) acc =
      (acc.1 ++ (expandPieces P pieces).1,
       acc.2 ++ (expandPieces P pieces).2) := by
  induction pieces generalizing acc with
  | nil => simp [expandPieces]
  | cons p ps ih =>
    rw [List.foldl_cons, ih]
    conv_rhs => rw [expandPieces, List.foldl_cons, ih]
    dsimp only [expandStep]
    by_cases h : canFit P p <;> simp [h]

lemma expandPieces_cons (P : GuillotinePacker) (p : Piece)
    (ps : List Piece) :
    expandPieces P (p :: ps) =
      (if canFit P p then
        (List.replicate p.quantity (mkWorkUnit p) ++ (expandPieces P ps).1,
          (expandPieces P ps).2)
       else
        ((expandPieces P ps).1,
          List.replicate p.quantity p ++ (expandPieces P ps).2)) := by
  rw [expandPieces, List.foldl_cons, foldl_expandStep_append]
  dsimp only [expandStep]
  by_cases h : canFit P p <;> simp [h]

lemma expandPieces_rejected (P : GuillotinePacker) (pieces : List Piece) :
    (expandPieces P pieces).2 = rejectedPerUnit P pieces := by
  induction pieces with
  | nil => rfl
  | cons p ps ih =>
    rw [expandPieces_cons, rejectedPerUnit]
    by_cases h : canFit P p <;> simp [h, ih]

lemma expandPieces_rejected_mem {P : GuillotinePacker} {pieces : List Piece}
    {p : Piece} (hp : p ∈ pieces) (hfit : canFit P p = false)
    (hq : 1 ≤ p.quantity) : p ∈ (expandPieces P pieces).2 := by
  rw [expandPieces_rejected]
  induction pieces with
  | nil => simp at hp
  | cons q qs ih =>
    rw [rejectedPerUnit, List.mem_append]
    rcases List.mem_cons.mp hp with rfl | hp
    · left
      rw [if_neg (by simp [hfit])]
      exact List.mem_replicate.mpr ⟨by omega, rfl⟩
    · exact Or.inr (ih hp)

lemma expandPieces_units_mem {P : GuillotinePacker} {pieces : List Piece}
    {u : WorkUnit} (hu : u ∈ (expandPieces P pieces).1) :
    ∃ p ∈ pieces, u = mkWorkUnit p := by
  induction pieces with
  | nil => simp [expandPieces] at hu
  | cons p ps ih =>
    rw [expandPieces_cons] at hu
    by_cases h : canFit P p
    · rw [if_pos h] at hu
      dsimp only at hu
      rcases List.mem_append.mp hu with hu | hu
      · exact ⟨p, List.mem_cons_self _ _,
          (List.mem_replicate.mp hu).2⟩
      · obtain ⟨q, hq, hq2⟩ := ih hu
        exact ⟨q, List.mem_cons_of_mem _ hq, hq2⟩
    · rw [if_neg h] at hu
      dsimp only at hu
      obtain ⟨q, hq, hq2⟩ := ih hu
      exact ⟨q, List.mem_cons_of_mem _ hq, hq2⟩

lemma packPieces_some_elim {P : GuillotinePacker} {fuel : ℕ}
    {pieces : List Piece} {r : CuttingResult}
    (h : packPieces P fuel pieces = some r) :
    ∃ bs, packLoop P fuel (sortUnits (expandPieces P pieces).1) 1 = some bs ∧
      r.boards = bs ∧ r.total_boards = bs.length ∧
      r.rejected_pieces = (expandPieces P pieces).2 := by
  dsimp only [packPieces] at h
  rcases hrec : packLoop P fuel (sortUnits (expandPieces P pieces).1) 1
    with _ | bs
  · rw [hrec] at h
    simp at h
  · rw [hrec] at h
    simp only [Option.some.injEq] at h
    subst h
    exact ⟨bs, rfl, rfl, rfl, rfl⟩

lemma packPieces_mono {P : GuillotinePacker} {pieces : List Piece}
    {r : CuttingResult} {fuel fuel' : ℕ} (hle : fuel ≤ fuel')
    (h : packPieces P fuel pieces = some r) :
    packPieces P fuel' pieces = some r := by
  dsimp only [packPieces] at h ⊢
  rcases hrec : packLoop P fuel (sortUnits (expandPieces P pieces).1) 1
    with _ | bs
  · rw [hrec] at h
    simp at h
  · rw [hrec] at h
    rw [packLoop_mono hle hrec]
    exact h

lemma sorted_units_dims {P : GuillotinePacker} {pieces : List Piece}
    (hdims : ∀ p ∈ pieces, 0 ≤ p.length ∧ 0 ≤ p.width) :
    ∀ u ∈ sortUnits (expandPieces P pieces).1,
      0 ≤ u.length ∧ 0 ≤ u.width := by
  intro u hu
  have hu2 := (sortUnits_perm _).mem_iff.mp hu
  obtain ⟨p, hp, rfl⟩ := expandPieces_units_mem hu2
  dsimp only [mkWorkUnit]
  constructor
  · exact mul_nonneg (hdims p hp).1 (by norm_num)
  · exact mul_nonneg (hdims p hp).2 (by norm_num)

/-- C1: the claim says `pack_pieces` is total on well-formed input, in
particular for a width-locked piece that passes the feasibility filter
unrotated. The code contradicts this: `_try_place_piece` has no branch
that places a piece whose `width_constraint` is set, so every board packs
nothing, the unit carries over unchanged, and the `while` loop never
finishes — the fuelled model returns `none` at every fuel. -/
theorem C1_pack_width_locked_diverges :
    ∀ fuel : ℕ, packPieces packerA fuel [pieceWLock] = none := by
  intro fuel
  have h1 : sortUnits (expandPieces packerA [pieceWLock]).1 =
      [mkWorkUnit pieceWLock] := by decide
  have h2 :
      (packSingleBoard packerA [mkWorkUnit pieceWLock]).1.pieces = [] := by
    decide
  dsimp only [packPieces]
  rw [h1, packLoop_stuck h2 fuel 1]

/-- C2 counterexample: an infeasible piece with quantity 2 is appended to
`rejected_pieces` twice (once per expanded unit), not exactly once as the
claim states. -/
theorem C2_counterexample :
    packPieces packerA 1 [pieceB300] =
      some ⟨[], 0, 0, [pieceB300, pieceB300]⟩ ∧
    pieceB300.quantity = 2 :=
  ⟨by decide, rfl⟩

/-- C2 (amended): an infeasible InputPiece is appended to
`rejected_pieces` once per expanded unit — `quantity` copies, in input
order — because the `can_fit` test and the rejection append sit inside
the per-unit expansion loop. -/
theorem C2_rejected_once_per_unit {P : GuillotinePacker} {fuel : ℕ}
    {pieces : List Piece} {r : CuttingResult}
    (h : packPieces P fuel pieces = some r) :
    r.rejected_pieces = rejectedPerUnit P pieces := by
  obtain ⟨bs, -, -, -, hrej⟩ := packPieces_some_elim h
  rw [hrej]
  exact expandPieces_rejected P pieces

/-- Witness for C2 (amended) at a concrete run. -/
theorem C2_rejected_once_per_unit_witness :
    packPieces packerA 1 [pieceB300] =
      some ⟨[], 0, 0, [pieceB300, pieceB300]⟩ ∧
    (⟨[], 0, 0, [pieceB300, pieceB300]⟩ : CuttingResult).rejected_pieces =
      rejectedPerUnit packerA [pieceB300] :=
  ⟨by decide, @C2_rejected_once_per_unit packerA 1 [pieceB300]
    ⟨[], 0, 0, [pieceB300, pieceB300]⟩ (by decide)⟩

/-- C3: whenever `pack_pieces` returns, `total_boards` equals the number
of boards, the number of placements across all boards equals the number
of expanded WorkUnits (each unit placed on exactly one board), and every
infeasible input piece with at least one requested unit appears in
`rejected_pieces`. -/
theorem C3_conservation {P : GuillotinePacker} {fuel : ℕ}
    {pieces : List Piece} {r : CuttingResult}
    (h : packPieces P fuel pieces = some r) :
    r.total_boards = r.boards.length ∧
    (r.boards.map fun b => b.pieces.length).sum =
      (expandPieces P pieces).1.length ∧
    (∀ p ∈ pieces, canFit P p = false → 1 ≤ p.quantity →
      p ∈ r.rejected_pieces) := by
  obtain ⟨bs, hrec, hbs, htot, hrej⟩ := packPieces_some_elim h
  refine ⟨by rw [hbs, htot], ?_, ?_⟩
  · rw [hbs, packLoop_count hrec]
    exact (sortUnits_perm _).length_eq
  · intro p hp hfit hq
    rw [hrej]
    exact expandPieces_rejected_mem hp hfit hq

/-- Witness for C3 at a concrete run. -/
theorem C3_conservation_witness :
    packPieces packerA 1 [pieceP1] = some resultA ∧
    (resultA.total_boards = resultA.boards.length ∧
     (resultA.boards.map fun b => b.pieces.length).sum =
       (expandPieces packerA [pieceP1]).1.length ∧
     (∀ p ∈ [pieceP1], canFit packerA p = false → 1 ≤ p.quantity →
       p ∈ resultA.rejected_pieces)) :=
  ⟨by decide, @C3_conservation packerA 1 [pieceP1] resultA (by decide)⟩

/-- C4: a work unit with either lock flag set is never placed rotated:
any successful `_try_place_piece` on it yields `rotated = false`. -/
theorem C4_locked_placement_not_rotated {piece : WorkUnit}
    {rect : Rectangle} {pp : PlacedPiece} {nrs : List Rectangle}
    (hc : piece.length_constraint = true ∨ piece.width_constraint = true)
    (h : tryPlacePiece piece rect = some (pp, nrs)) : pp.rotated = false :=
  tryPlacePiece_rotated_eq_false hc h

/-- Witness for C4: the length-locked scenario C piece placed on an empty
board comes out unrotated. -/
theorem C4_locked_placement_not_rotated_witness :
    ((mkWorkUnit pieceC).length_constraint = true ∨
      (mkWorkUnit pieceC).width_constraint = true) ∧
    (⟨"C", 1300, 500, 0, 0, false⟩ : PlacedPiece).rotated = false :=
  ⟨Or.inl rfl, C4_locked_placement_not_rotated (Or.inl rfl)
    (show tryPlacePiece (mkWorkUnit pieceC) ⟨0, 0, 2400, 1200⟩ =
        some (⟨"C", 1300, 500, 0, 0, false⟩,
          [⟨1300, 0, 1100, 1200⟩, ⟨0, 500, 1300, 700⟩]) by decide)⟩

/-- C5: on every board of every returned result (for well-formed piece
dimensions), no two placed pieces overlap in area: their interiors are
disjoint. -/
theorem C5_no_overlap {P : GuillotinePacker} {fuel : ℕ}
    {pieces : List Piece} {r : CuttingResult}
    (hdims : ∀ p ∈ pieces, 0 ≤ p.length ∧ 0 ≤ p.width)
    (h : packPieces P fuel pieces = some r) :
    ∀ b ∈ r.boards,
      b.pieces.Pairwise fun a c => ¬ a.rect.overlapsRect c.rect := by
  obtain ⟨bs, hrec, hbs, -, -⟩ := packPieces_some_elim h
  subst hbs
  intro b hb
  exact (packLoop_boards (sorted_units_dims hdims) hrec b hb).2.1

/-- Witness for C5 at a concrete run. -/
theorem C5_no_overlap_witness :
    ((∀ p ∈ [pieceP1], 0 ≤ p.length ∧ 0 ≤ p.width) ∧
      packPieces packerA 1 [pieceP1] = some resultA) ∧
    (∀ b ∈ resultA.boards,
      b.pieces.Pairwise fun a c => ¬ a.rect.overlapsRect c.rect) :=
  ⟨⟨by decide, by decide⟩,
    @C5_no_overlap packerA 1 [pieceP1] resultA (by decide) (by decide)⟩

/-- C6: every placed piece lies fully inside its board:
`0 ≤ x`, `x + length ≤ boardLength`, `0 ≤ y`, `y + width ≤ boardWidth`. -/
theorem C6_within_board {P : GuillotinePacker} {fuel : ℕ}
    {pieces : List Piece} {r : CuttingResult}
    (hdims : ∀ p ∈ pieces, 0 ≤ p.length ∧ 0 ≤ p.width)
    (h : packPieces P fuel pieces = some r) :
    ∀ b ∈ r.boards, ∀ q ∈ b.pieces,
      0 ≤ q.x ∧ q.x + q.length ≤ b.length ∧
      0 ≤ q.y ∧ q.y + q.width ≤ b.width := by
  obtain ⟨bs, hrec, hbs, -, -⟩ := packPieces_some_elim h
  subst hbs
  intro b hb q hq
  obtain ⟨hsub, -, hlen, hwid⟩ :=
    packLoop_boards (sorted_units_dims hdims) hrec b hb
  obtain ⟨h1, h2, h3, h4⟩ := hsub q hq
  dsimp only [boardRect, PlacedPiece.rect] at h1 h2 h3 h4
  rw [hlen, hwid]
  exact ⟨h1, by linarith, h3, by linarith⟩

/-- Witness for C6 at a concrete run. -/
theorem C6_within_board_witness :
    ((∀ p ∈ [pieceP1], 0 ≤ p.length ∧ 0 ≤ p.width) ∧
      packPieces packerA 1 [pieceP1] = some resultA) ∧
    (∀ b ∈ resultA.boards, ∀ q ∈ b.pieces,
      0 ≤ q.x ∧ q.x + q.length ≤ b.length ∧
      0 ≤ q.y ∧ q.y + q.width ≤ b.width) :=
  ⟨⟨by decide, by decide⟩,
    @C6_within_board packerA 1 [pieceP1] resultA (by decide) (by decide)⟩

/-- C7: after the ordering step every constrained unit (either lock flag
set) precedes every unconstrained one, and within each group areas are
non-increasing. -/
theorem C7_ordering (P : GuillotinePacker) (pieces : List Piece) :
    (sortUnits (expandPieces P pieces).1).Pairwise fun a b =>
      (constrained b = true → constrained a = true) ∧
      (constrained a = constrained b → b.area ≤ a.area) := by
  refine List.Pairwise.imp ?_ (sortUnits_sorted _)
  intro a b hab
  dsimp only [sortLE] at hab
  cases hA : a.length_constraint || a.width_constraint <;>
    cases hB : b.length_constraint || b.width_constraint <;>
    rw [hA, hB] at hab <;>
    simp only [constrained, hA, hB] <;> simp_all

/-- C8: scenario A — a 2400×1200 board and one 100 cm × 50 cm piece give
one board with one placed piece of 1000×500 mm at the origin, unrotated,
with utilization 434/25 = 17.36. -/
theorem C8_scenarioA :
    ∀ fuel : ℕ, 1 ≤ fuel →
      packPieces packerA fuel [pieceP1] = some resultA := by
  intro fuel hfuel
  exact packPieces_mono hfuel (by decide)

/-- Witness for C8 at the minimal sufficient fuel. -/
theorem C8_scenarioA_witness :
    1 ≤ 1 ∧ packPieces packerA 1 [pieceP1] = some resultA :=
  ⟨le_refl 1, C8_scenarioA 1 (le_refl 1)⟩

/-- C9: throughout the packing of a single board (after any prefix of the
piece loop), the free rectangles all lie inside the board, are pairwise
non-overlapping, and none overlaps any placed piece — in particular the
right and top slices of a split never overlap each other, the placed
piece, or any other free rectangle. -/
theorem C9_free_rects_disjoint {P : GuillotinePacker}
    {pieces l₁ l₂ : List WorkUnit} (hsplit : pieces = l₁ ++ l₂)
    (hdims : ∀ u ∈ pieces, 0 ≤ u.length ∧ 0 ≤ u.width) :
    (∀ r ∈ (l₁.foldl boardStep
        ([Rectangle.mk 0 0 P.board_length P.board_width], [], [])).1,
      SubRect r (boardRect P)) ∧
    ((l₁.foldl boardStep
        ([Rectangle.mk 0 0 P.board_length P.board_width], [], [])).1.Pairwise
      fun a b => ¬ a.overlapsRect b) ∧
    (∀ r ∈ (l₁.foldl boardStep
        ([Rectangle.mk 0 0 P.board_length P.board_width], [], [])).1,
      ∀ q ∈ (l₁.foldl boardStep
        ([Rectangle.mk 0 0 P.board_length P.board_width], [], [])).2.1,
      ¬ r.overlapsRect q.rect) := by
  have hinv := @foldl_boardStep_inv P l₁
    ([Rectangle.mk 0 0 P.board_length P.board_width], [], [])
    (fun u hu => hdims u (by rw [hsplit]; exact List.mem_append_left _ hu))
    packInv_init
  exact ⟨hinv.free_sub, hinv.free_pw, hinv.free_placed⟩

/-- Witness for C9 after processing one concrete unit. -/
theorem C9_free_rects_disjoint_witness :
    (([mkWorkUnit pieceP1] : List WorkUnit) =
        [mkWorkUnit pieceP1] ++ [] ∧
      (∀ u ∈ [mkWorkUnit pieceP1], 0 ≤ u.length ∧ 0 ≤ u.width)) ∧
    ((∀ r ∈ ([mkWorkUnit pieceP1].foldl boardStep
        ([Rectangle.mk 0 0 packerA.board_length packerA.board_width],
          [], [])).1,
      SubRect r (boardRect packerA)) ∧
    (([mkWorkUnit pieceP1].foldl boardStep
        ([Rectangle.mk 0 0 packerA.board_length packerA.board_width],
          [], [])).1.Pairwise
      fun a b => ¬ a.overlapsRect b) ∧
    (∀ r ∈ ([mkWorkUnit pieceP1].foldl boardStep
        ([Rectangle.mk 0 0 packerA.board_length packerA.board_width],
          [], [])).1,
      ∀ q ∈ ([mkWorkUnit pieceP1].foldl boardStep
        ([Rectangle.mk 0 0 packerA.board_length packerA.board_width],
          [], [])).2.1,
      ¬ r.overlapsRect q.rect)) :=
  ⟨⟨by simp, by decide⟩,
    @C9_free_rects_disjoint packerA [mkWorkUnit pieceP1]
      [mkWorkUnit pieceP1] [] (by simp) (by decide)⟩

/-- C10: whenever `pack_pieces` returns, no board in the result is empty:
each packed board holds at least one placed piece. -/
theorem C10_boards_nonempty {P : GuillotinePacker} {fuel : ℕ}
    {pieces : List Piece} {r : CuttingResult}
    (h : packPieces P fuel pieces = some r) :
    ∀ b ∈ r.boards, b.pieces ≠ [] := by
  obtain ⟨bs, hrec, hbs, -, -⟩ := packPieces_some_elim h
  subst hbs
  exact packLoop_nonempty hrec

/-- Witness for C10 at a concrete run. -/
theorem C10_boards_nonempty_witness :
    packPieces packerA 1 [pieceP1] = some resultA ∧
    (∀ b ∈ resultA.boards, b.pieces ≠ []) :=
  ⟨by decide, @C10_boards_nonempty packerA 1 [pieceP1] resultA (by decide)⟩

end Guillotine
